import Mathlib

/-!
Verification development for the brown-dust-2-mods-handler client.

The definitions below are a shallow embedding of the TypeScript source:
the ImportWizard component (app/src/components/ImportWizard.tsx), the App
component (app/src/App.tsx and the variant in unnamed part_003 that carries
the preview-cancellation flag), and the canon catalog constants.
JavaScript optional values (`undefined`/`null`) are embedded as `Option`,
JS `Map` as an association list with the Map's insertion/overwrite
semantics, and React state updates as explicit state passing.  Engine
builtins whose behavior is not determined by this repository's source —
the Unicode tables behind `toLowerCase`/`normalize("NFD")` and the locale
collation behind `localeCompare` — enter the embedding as function
parameters, like the other external collaborators.
-/

namespace BD2

/-- The `ModType` union from ImportWizard.tsx / App.tsx. -/
inductive ModType where
  | idle | cutscene | history | date | minigame | swap | battle | ui | other
  deriving DecidableEq, Repr

/-- Structure `DraftMod` from ImportWizard.tsx.  Optional fields (`?`, `| null`)
become `Option`; `infer_confidence` (a JS number in [0,1]) is embedded as a
rational, which no claim computes with. -/
structure DraftMod where
  display_name : String
  folder_path : String
  author : Option String
  download_url : Option String
  mod_type : ModType
  character_id : Option Int
  costume_id : Option Int
  infer_confidence : ℚ
  deriving DecidableEq, Repr

/-! ### JS `Map` built from an entry list (dryRun dedup step)

`new Map(entries)` inserts entries in order: a repeated key overwrites the
stored value in place (keeping the key's original position) and a fresh key
is appended.  `mapSet` is `Map.prototype.set` on an association list and
`mapFromEntries` is the `new Map(entries)` constructor. -/

/-- One `Map.set`: overwrite the entry with the same key in place, or append. -/
def mapSet {α : Type} : List (String × α) → String × α → List (String × α)
  | [], kv => [kv]
  | p :: rest, kv => if p.1 = kv.1 then kv :: rest else p :: mapSet rest kv

/-- Constructor `new Map(entries)`: fold `Map.set` over the entry list. -/
def mapFromEntries {α : Type} (entries : List (String × α)) : List (String × α) :=
  entries.foldl mapSet []

/-- The dedup step of `dryRun` (ImportWizard.tsx):
`Array.from(new Map(result.map((r) => [r.folder_path, r])).values())` —
last record wins per `folder_path`. -/
def dedupeByPath (result : List DraftMod) : List DraftMod :=
  (mapFromEntries (result.map fun r => (r.folder_path, r))).map (·.2)

/-- Normalization applied after dedup in `dryRun`:
`character_id: r.character_id ?? null, costume_id: r.costume_id ?? null`.
With `Option` standing for both `undefined` and `null`, `x ?? null` is the
identity, so this step only re-writes the two fields with themselves. -/
def normalizeDraft (r : DraftMod) : DraftMod :=
  { r with character_id := r.character_id, costume_id := r.costume_id }

/-- The draft list produced by a successful `dryRun` scan from the raw scan
result (ImportWizard.tsx): dedup by `folder_path`, then normalize the
numeric foreign keys. -/
def dryRunDrafts (result : List DraftMod) : List DraftMod :=
  (dedupeByPath result).map normalizeDraft

/-! ### Row editing (`updateRow` in ImportWizard.tsx) -/

/-- A field-level patch (`Partial<DraftMod>`): the outer `Option` records
whether the field is included in the patch; for fields that may themselves
be `null`, the inner `Option` is the field value. -/
structure DraftPatch where
  display_name : Option String
  folder_path : Option String
  author : Option (Option String)
  download_url : Option (Option String)
  mod_type : Option ModType
  character_id : Option (Option Int)
  costume_id : Option (Option Int)
  infer_confidence : Option ℚ
  deriving Repr

/-- The empty patch (no fields included). -/
def DraftPatch.empty : DraftPatch :=
  ⟨none, none, none, none, none, none, none, none⟩

/-- The object spread `{ ...row, ...patch }`: every field included in the
patch overrides the row's field. -/
def applyPatch (d : DraftMod) (p : DraftPatch) : DraftMod :=
  { display_name := p.display_name.getD d.display_name
    folder_path := p.folder_path.getD d.folder_path
    author := p.author.getD d.author
    download_url := p.download_url.getD d.download_url
    mod_type := p.mod_type.getD d.mod_type
    character_id := p.character_id.getD d.character_id
    costume_id := p.costume_id.getD d.costume_id
    infer_confidence := p.infer_confidence.getD d.infer_confidence }

/-- The body of `updateRow` on one row:
`next[i] = { ...next[i], ...patch }; if (patch.character_id !== undefined)
{ next[i].costume_id = null; }`. -/
def updateRowFields (d : DraftMod) (p : DraftPatch) : DraftMod :=
  let next := applyPatch d p
  if p.character_id.isSome then { next with costume_id := none } else next

/-- Function `updateRow(i, patch)` on the draft list.  The UI only calls it with an
index produced by mapping over `drafts`, so the in-range case is the one
exercised; out of range the list is returned unchanged. -/
def updateRow (prev : List DraftMod) (i : Nat) (patch : DraftPatch) : List DraftMod :=
  match prev[i]? with
  | some d => prev.set i (updateRowFields d patch)
  | none => prev

/-! ### `commitAll` (ImportWizard.tsx) -/

/-- The observable calls `commitAll` makes to its collaborators. -/
inductive CommitEffect where
  | invokeCommit (drafts : List DraftMod)
  | committedCallback
  | alertError (msg : String)
  deriving DecidableEq, Repr

/-- The commit-relevant ImportWizard state: the draft list, the busy flag
and the dialog's open state (driven through `onOpenChange`). -/
structure WizardState where
  drafts : List DraftMod
  busy : Bool
  dialogOpen : Bool
  deriving Repr

/-- Function `commitAll`: empty draft list → close the dialog and return (no invoke);
otherwise invoke `mods_import_commit` (its outcome is the `commitResult`
parameter), close and fire `onCommitted` on success, alert on failure, and
clear the busy flag in the `finally`. -/
def commitAll (s : WizardState) (commitResult : Except String Unit) :
    WizardState × List CommitEffect :=
  if s.drafts = [] then ({ s with dialogOpen := false }, [])
  else
    match commitResult with
    | .ok _ =>
        ({ s with busy := false, dialogOpen := false },
         [.invokeCommit s.drafts, .committedCallback])
    | .error e =>
        ({ s with busy := false }, [.invokeCommit s.drafts, .alertError e])

/-! ### Author inference (ImportWizard.tsx) -/

/-- Table `AUTHOR_ALIASES`, in source (insertion) order — the order
`Object.entries` iterates for non-numeric string keys. -/
def AUTHOR_ALIASES : List (String × String) :=
  [("mrmiagi", "MrMiagi"),
   ("yukiishida", "Yuk11sh1d4"),
   ("linr", "Linr"),
   ("hcoel", "HCoel"),
   ("hardcracker", "Hardcracker"),
   ("mrperhaps", "MrPerhaps"),
   ("nimloth", "Nimloth"),
   ("sloth", "Sloth"),
   ("synae", "Synae"),
   ("qi", "Qi齊"),
   ("anextra", "AnExtra"),
   ("hiccup", "Hiccup"),
   ("rikudouray", "RikudouRay"),
   ("muslimwomen", "Muslimwomen"),
   ("selin86", "Selin86"),
   ("mahdicc", "Mahdicc"),
   ("bbman", "BBman"),
   ("minki", "Minki")]

/-- A combining diacritical mark, the range the source strips after NFD:
`replace(/[̀-ͯ]/g, "")`. -/
def isCombiningMark (c : Char) : Bool :=
  0x300 ≤ c.toNat && c.toNat ≤ 0x36F

/-- A character kept by `replace(/[^a-z0-9]/g, "")`. -/
def isLowerAlnum (c : Char) : Bool :=
  (('a' ≤ c) && (c ≤ 'z')) || (('0' ≤ c) && (c ≤ '9'))

/-- The normalization pipeline of `inferAuthorFromFolderName`:
`toLowerCase`, `normalize("NFD")`, strip combining marks, then remove
everything outside `[a-z0-9]`.  The first two steps are JS builtins backed
by the engine's Unicode case-mapping and decomposition tables — external to
this repository's source — so they enter the embedding as the parameters
`lower` and `nfd`; the two regex replaces are source code and are embedded
concretely. -/
def sanitizeFolderName (lower nfd : String → String) (s : String) : String :=
  ⟨((nfd (lower s)).data.filter (fun c => !(isCombiningMark c))).filter
      isLowerAlnum⟩

/-- The value of the `toLowerCase` builtin on ASCII-only strings, on which
JS lowercasing is exactly the ASCII case mapping. -/
def asciiLower (s : String) : String :=
  ⟨s.data.map Char.toLower⟩

/-- The value of the `normalize("NFD")` builtin on strings without
precomposed characters: on ASCII input NFD is the identity. -/
def nfdAscii (s : String) : String := s

/-- JS `haystack.startsWith(needle)` on character lists. -/
def startsWithChars : List Char → List Char → Bool
  | _, [] => true
  | [], _ :: _ => false
  | h :: t, n :: ns => (h == n) && startsWithChars t ns

/-- JS `haystack.includes(needle)` (substring containment) on character lists. -/
def includesChars : List Char → List Char → Bool
  | [], needle => needle.isEmpty
  | h :: t, needle => startsWithChars (h :: t) needle || includesChars t needle

/-- JS `String.prototype.includes`. -/
def strIncludes (hay needle : String) : Bool :=
  includesChars hay.data needle.data

/-- The alias-selection loop body of `inferAuthorFromFolderName`: keep the
current best unless this entry matches and is strictly longer (so the first
entry of maximal key length, in table order, wins). -/
def pickAlias (sanitized : String) (best : Option (String × String))
    (p : String × String) : Option (String × String) :=
  if strIncludes sanitized p.1 then
    match best with
    | none => some p
    | some b => if p.1.length > b.1.length then some p else some b
  else best

/-- Function `inferAuthorFromFolderName` (ImportWizard.tsx): normalize, return
"unknown" on an empty result, otherwise scan `AUTHOR_ALIASES` keeping a
longest match, and return its canonical form ("unknown" if none matched).
The `lower`/`nfd` parameters are the case-mapping and NFD builtins the
normalization calls. -/
def inferAuthorFromFolderName (lower nfd : String → String)
    (folderName : String) : String :=
  let sanitized := sanitizeFolderName lower nfd folderName
  if sanitized = "" then "unknown"
  else
    match AUTHOR_ALIASES.foldl (pickAlias sanitized) none with
    | some b => b.2
    | none => "unknown"

/-! ### Preview generation (App.tsx; the part_003 variant carries the
cancellation-request flag and is the one embedded here) -/

/-- The `kind` of a preview-generation job. -/
inductive PreviewKind where
  | image | video
  deriving DecidableEq, Repr

/-- The `status` of a progress payload. -/
inductive PreviewStatus where
  | running | done | error | cancelled
  deriving DecidableEq, Repr

/-- Structure `PreviewProgressPayload` from App.tsx.  Counters are JS numbers used as
integers; `current_mod` and `message` are optional. -/
structure PreviewProgressPayload where
  kind : PreviewKind
  status : PreviewStatus
  total : Int
  processed : Int
  generated : Int
  skipped : Int
  errors : Int
  current_mod : Option String
  message : Option String
  deriving DecidableEq, Repr

/-- The preview-related App state: the two busy flags, the progress cell
and the cancellation-requested flag. -/
structure PreviewState where
  previewImagesBusy : Bool
  previewVideosBusy : Bool
  previewProgress : Option PreviewProgressPayload
  previewCancelRequested : Bool
  deriving DecidableEq, Repr

/-- The busy flag corresponding to a job kind. -/
def busyFor (k : PreviewKind) (s : PreviewState) : Bool :=
  match k with
  | .image => s.previewImagesBusy
  | .video => s.previewVideosBusy

/-- The optimistic running payload published on an accepted start: status
running, all counters zero, a "Preparing …" message and no current mod. -/
def initialProgress (k : PreviewKind) : PreviewProgressPayload :=
  { kind := k
    status := .running
    total := 0
    processed := 0
    generated := 0
    skipped := 0
    errors := 0
    current_mod := none
    message := some (match k with
      | .image => "Preparing preview images..."
      | .video => "Preparing preview videos...") }

/-- The terminal payload written by the start-failure catch branch:
status error, `errors` = 1, every other counter zero. -/
def errorProgress (k : PreviewKind) (message : String) : PreviewProgressPayload :=
  { kind := k
    status := .error
    total := 0
    processed := 0
    generated := 0
    skipped := 0
    errors := 1
    current_mod := none
    message := some message }

/-- Function `generatePreviewImages`: no-op when either busy flag is set; otherwise
set the image busy flag, reset the cancellation-requested flag, publish the
optimistic running payload and invoke the external generator. -/
def generatePreviewImages (s : PreviewState) : PreviewState :=
  if s.previewImagesBusy || s.previewVideosBusy then s
  else
    { s with
      previewImagesBusy := true
      previewCancelRequested := false
      previewProgress := some (initialProgress .image) }

/-- Function `generatePreviewVideos`: the video counterpart, same guard. -/
def generatePreviewVideos (s : PreviewState) : PreviewState :=
  if s.previewImagesBusy || s.previewVideosBusy then s
  else
    { s with
      previewVideosBusy := true
      previewCancelRequested := false
      previewProgress := some (initialProgress .video) }

/-- Operation `start(kind)`: dispatch to the two source functions. -/
def startPreview : PreviewKind → PreviewState → PreviewState
  | .image => generatePreviewImages
  | .video => generatePreviewVideos

/-- The `.catch` branch of the image start: publish the terminal error
payload and clear the image busy flag. -/
def generatePreviewImagesFailed (msg : String) (s : PreviewState) : PreviewState :=
  { s with
    previewProgress := some (errorProgress .image msg)
    previewImagesBusy := false }

/-- The `.catch` branch of the video start. -/
def generatePreviewVideosFailed (msg : String) (s : PreviewState) : PreviewState :=
  { s with
    previewProgress := some (errorProgress .video msg)
    previewVideosBusy := false }

/-- One start attempt together with the outcome of the external `invoke`:
when the guard rejects nothing happens; when it accepts, the running state
is published, and if the invocation rejects the catch branch follows. -/
def startPreviewWith (k : PreviewKind) (invokeResult : Except String Unit)
    (s : PreviewState) : PreviewState :=
  if s.previewImagesBusy || s.previewVideosBusy then s
  else
    let started := startPreview k s
    match invokeResult with
    | .ok _ => started
    | .error msg =>
        match k with
        | .image => generatePreviewImagesFailed msg started
        | .video => generatePreviewVideosFailed msg started

/-- The progress-event merge of the `preview-progress` listener:
`{ ...payload, message: payload.message ?? prev?.message ?? null,
current_mod: payload.current_mod ?? prev?.current_mod ?? null }`. -/
def mergeProgress (prev : Option PreviewProgressPayload)
    (payload : PreviewProgressPayload) : PreviewProgressPayload :=
  { payload with
    message := payload.message.orElse (fun _ => prev.bind (·.message))
    current_mod := payload.current_mod.orElse (fun _ => prev.bind (·.current_mod)) }

/-- The full `preview-progress` listener transition: merge the payload into
the progress cell, and on any non-running status clear the busy flag of the
payload's kind (the preview refresh the listener also triggers is a pure
side effect outside this state). -/
def onPreviewProgressEvent (payload : PreviewProgressPayload)
    (s : PreviewState) : PreviewState :=
  let merged := { s with previewProgress := some (mergeProgress s.previewProgress payload) }
  if payload.status ≠ .running then
    match payload.kind with
    | .image => { merged with previewImagesBusy := false }
    | .video => { merged with previewVideosBusy := false }
  else merged

/-- Function `clearPreviewProgress`: reset the progress cell and the
cancellation-requested flag. -/
def clearPreviewProgress (s : PreviewState) : PreviewState :=
  { s with previewProgress := none, previewCancelRequested := false }

/-- Function `cancelPreviewGeneration`: no-op unless the progress cell holds a
running payload; otherwise set the cancellation-requested flag and replace
the running payload's message by "Cancelling..." (the external cancel
request is fire-and-forget). -/
def cancelPreviewGeneration (s : PreviewState) : PreviewState :=
  match s.previewProgress with
  | some p =>
      if p.status = .running then
        { s with
          previewCancelRequested := true
          previewProgress := some { p with message := some "Cancelling..." } }
      else s
  | none => s

/-! ### Bulk import queue (`startBulkImportFromLibraries` in App.tsx) -/

/-- Structure `AuthorFolder` from App.tsx. -/
structure AuthorFolder where
  folder_path : String
  inferred_author : String
  deriving DecidableEq, Repr

/-- The inner loop body: skip an author whose `folder_path` was already
seen, otherwise append it.  The `seenFolders` set always holds exactly the
paths of the queue built so far, so membership in the queue stands for it. -/
def pushAuthor (q : List AuthorFolder) (a : AuthorFolder) : List AuthorFolder :=
  if q.any (fun b => b.folder_path = a.folder_path) then q else q ++ [a]

/-- The queue accumulated over the per-root results before sorting: a
failed root (`library_author_dirs` rejected) is logged and skipped, a
successful root contributes its author list in order. -/
def collectAuthors (results : List (Except String (List AuthorFolder))) :
    List AuthorFolder :=
  results.foldl
    (fun q r =>
      match r with
      | .ok authors => authors.foldl pushAuthor q
      | .error _ => q) []

/-- The author lists of the successful roots, concatenated in root order. -/
def flattenOk (results : List (Except String (List AuthorFolder))) :
    List AuthorFolder :=
  (results.map fun r =>
    match r with
    | .ok authors => authors
    | .error _ => []).flatten

/-- Code-point lexicographic order on character lists.  This is the
claim's reading of "sorted lexicographically", written from the spec's
words so the program's collation order can be compared against it; it is
not the program's comparator. -/
def charListLe : List Char → List Char → Bool
  | [], _ => true
  | _ :: _, [] => false
  | a :: as, b :: bs =>
      if a.toNat < b.toNat then true
      else if b.toNat < a.toNat then false
      else charListLe as bs

/-- A collation comparator agreeing with the default-locale `localeCompare`
on the mixed-case ASCII paths used below: primary comparison of case-folded
code points, so "apple" sorts before "Banana" as the default collation
orders it (case is only a tertiary difference in Unicode collation and
these paths never tie at the primary level). -/
def asciiFoldLe (a b : String) : Bool :=
  charListLe (a.data.map Char.toLower) (b.data.map Char.toLower)

/-- Function `startBulkImportFromLibraries` builds the queue: collect with
per-path dedup, then `queue.sort((a, b) => a.folder_path.localeCompare(b.folder_path))`
— a stable sort.  `localeCompare` consults the runtime's locale collation
(ICU), an external collaborator not determined by this repository's source,
so the comparator enters the embedding as the parameter `le`. -/
def startBulkQueueWith (le : AuthorFolder → AuthorFolder → Bool)
    (results : List (Except String (List AuthorFolder))) : List AuthorFolder :=
  (collectAuthors results).mergeSort le

/-! ### Specification-side observation functions

These are the vocabulary the claims are stated in: the last/first record
with a given path in a list, and lookup in an association list. -/

/-- The first entry of a map list with the given key. -/
def mapLookup {α : Type} : List (String × α) → String → Option (String × α)
  | [], _ => none
  | q :: rest, k => if q.1 = k then some q else mapLookup rest k

/-- The last entry of a pair list with the given key. -/
def lastEntryWithKey {α : Type} : List (String × α) → String → Option (String × α)
  | [], _ => none
  | e :: rest, k =>
      match lastEntryWithKey rest k with
      | some x => some x
      | none => if e.1 = k then some e else none

/-- The last record of a draft list with the given `folder_path`. -/
def lastWithPath : List DraftMod → String → Option DraftMod
  | [], _ => none
  | r :: rest, p =>
      match lastWithPath rest p with
      | some x => some x
      | none => if r.folder_path = p then some r else none

/-- The first record of an author-folder list with the given `folder_path`. -/
def firstWithPath : List AuthorFolder → String → Option AuthorFolder
  | [], _ => none
  | a :: rest, p => if a.folder_path = p then some a else firstWithPath rest p

/-! ## Example values used by the witnesses -/

/-- A concrete draft row with both catalog keys set. -/
def exDraft : DraftMod :=
  { display_name := "x", folder_path := "/a", author := none,
    download_url := none, mod_type := .other, character_id := some 2,
    costume_id := some 1, infer_confidence := 0 }

/-- A concrete scan record for folder "/a". -/
def exDraftA : DraftMod :=
  { display_name := "x", folder_path := "/a", author := none,
    download_url := none, mod_type := .other, character_id := none,
    costume_id := none, infer_confidence := 0 }

/-- A later scan record for the same folder "/a". -/
def exDraftA2 : DraftMod :=
  { exDraftA with display_name := "y" }

/-- A concrete patch that includes `character_id`. -/
def exPatch : DraftPatch :=
  { DraftPatch.empty with character_id := some (some 4) }

/-- An idle preview state (with a stale cancellation request). -/
def exIdle : PreviewState :=
  { previewImagesBusy := false, previewVideosBusy := false,
    previewProgress := none, previewCancelRequested := true }

/-- A preview state with an image job active. -/
def exBusy : PreviewState :=
  { previewImagesBusy := true, previewVideosBusy := false,
    previewProgress := some (initialProgress .image),
    previewCancelRequested := false }

/-- A concrete running payload carrying a message and a current mod. -/
def exRunning : PreviewProgressPayload :=
  { kind := .image, status := .running, total := 10, processed := 3,
    generated := 2, skipped := 1, errors := 0,
    current_mod := some "modA", message := some "working" }

/-- A follow-up payload that supplies neither `message` nor `current_mod`. -/
def exBare : PreviewProgressPayload :=
  { kind := .image, status := .running, total := 10, processed := 4,
    generated := 3, skipped := 1, errors := 0,
    current_mod := none, message := none }

/-! ## Claim theorems -/

/-- C3: for every draft list, row index and patch that includes the
`character_id` field, the row produced by `updateRow` at that index has
`costume_id = null` in the same update, regardless of the patch's or the
row's prior `costume_id`. -/
theorem c3_character_patch_clears_costume (prev : List DraftMod) (i : Nat)
    (patch : DraftPatch) (r : DraftMod)
    (hchar : patch.character_id.isSome = true)
    (hr : (updateRow prev i patch)[i]? = some r) :
    r.costume_id = none := by
  unfold updateRow at hr
  cases hd : prev[i]? with
  | none => rw [hd] at hr; rw [hd] at hr; exact absurd hr (by simp)
  | some d =>
      rw [hd] at hr
      have hi : i < prev.length := (List.getElem?_eq_some_iff.mp hd).1
      rw [List.getElem?_set_self (by simpa using hi)] at hr
      cases hr
      simp [updateRowFields, hchar]

/-- Witness for C3 at a concrete row and patch. -/
theorem c3_character_patch_clears_costume_witness :
    (updateRow [exDraft] 0 exPatch)[0]? = some (updateRowFields exDraft exPatch) ∧
    (updateRowFields exDraft exPatch).costume_id = none := by
  refine ⟨by rfl, ?_⟩
  exact c3_character_patch_clears_costume [exDraft] 0 exPatch _ (by rfl) (by rfl)

/-- C5: `commitAll` on an empty draft list closes the dialog (open state
set to false) and performs no external calls at all — in particular the
commit collaborator is not invoked and no error is surfaced. -/
theorem c5_commit_empty_closes_without_invoke (s : WizardState)
    (res : Except String Unit) (h : s.drafts = []) :
    (commitAll s res).1.dialogOpen = false ∧ (commitAll s res).2 = [] := by
  simp [commitAll, h]

/-- Witness for C5 at a concrete empty-draft state. -/
theorem c5_commit_empty_closes_without_invoke_witness :
    (commitAll ⟨[], false, true⟩ (.ok ())).1.dialogOpen = false ∧
    (commitAll ⟨[], false, true⟩ (.ok ())).2 = [] :=
  c5_commit_empty_closes_without_invoke ⟨[], false, true⟩ (.ok ()) rfl

/-- C6: the progress-event merge replaces kind, status and every counter
with the incoming payload's values, keeps the previous `message` and
`current_mod` whenever the payload does not supply them, and takes the
payload's values whenever it does. -/
theorem c6_progress_merge_sticky (prev : Option PreviewProgressPayload)
    (p : PreviewProgressPayload) :
    (mergeProgress prev p).kind = p.kind ∧
    (mergeProgress prev p).status = p.status ∧
    (mergeProgress prev p).total = p.total ∧
    (mergeProgress prev p).processed = p.processed ∧
    (mergeProgress prev p).generated = p.generated ∧
    (mergeProgress prev p).skipped = p.skipped ∧
    (mergeProgress prev p).errors = p.errors ∧
    (p.message.isSome = true → (mergeProgress prev p).message = p.message) ∧
    (p.message = none → (mergeProgress prev p).message = prev.bind (·.message)) ∧
    (p.current_mod.isSome = true →
      (mergeProgress prev p).current_mod = p.current_mod) ∧
    (p.current_mod = none →
      (mergeProgress prev p).current_mod = prev.bind (·.current_mod)) := by
  refine ⟨rfl, rfl, rfl, rfl, rfl, rfl, rfl, ?_, ?_, ?_, ?_⟩ <;>
    intro h <;>
    cases hm : p.message <;> cases hc : p.current_mod <;>
    simp_all [mergeProgress, Option.orElse]

/-- Witness for C6: a bare follow-up event keeps the previous message and
current mod of a concrete running payload. -/
theorem c6_progress_merge_sticky_witness :
    (mergeProgress (some exRunning) exBare).processed = 4 ∧
    (mergeProgress (some exRunning) exBare).message = some "working" ∧
    (mergeProgress (some exRunning) exBare).current_mod = some "modA" := by
  have h := c6_progress_merge_sticky (some exRunning) exBare
  refine ⟨h.2.2.2.1.trans (by rfl), ?_, ?_⟩
  · exact (h.2.2.2.2.2.2.2.2.1 (by rfl)).trans (by rfl)
  · exact (h.2.2.2.2.2.2.2.2.2.2 (by rfl)).trans (by rfl)

/-- C1: starting a preview job of either kind is a no-op whenever a job of
either kind is active, and from an idle state `start("image")` immediately
followed by `start("video")` leaves exactly one job active — the image job,
whose published progress is the running image payload — with the second
call changing nothing. -/
theorem c1_preview_start_mutual_exclusion (t s : PreviewState) (k : PreviewKind)
    (hbusy : t.previewImagesBusy = true ∨ t.previewVideosBusy = true)
    (h1 : s.previewImagesBusy = false) (h2 : s.previewVideosBusy = false) :
    startPreview k t = t ∧
    generatePreviewVideos (generatePreviewImages s) = generatePreviewImages s ∧
    (generatePreviewImages s).previewImagesBusy = true ∧
    (generatePreviewImages s).previewVideosBusy = false ∧
    (generatePreviewImages s).previewProgress = some (initialProgress .image) ∧
    (initialProgress .image).status = .running := by
  refine ⟨?_, ?_, ?_, ?_, ?_, rfl⟩
  · rcases hbusy with hb | hb <;> cases k <;>
      simp [startPreview, generatePreviewImages, generatePreviewVideos, hb]
  · simp [generatePreviewImages, generatePreviewVideos, h1, h2]
  · simp [generatePreviewImages, h1, h2]
  · simp [generatePreviewImages, h1, h2]
  · simp [generatePreviewImages, h1, h2]

/-- Witness for C1 at a concrete busy state and a concrete idle state. -/
theorem c1_preview_start_mutual_exclusion_witness :
    startPreview .video exBusy = exBusy ∧
    generatePreviewVideos (generatePreviewImages exIdle) =
      generatePreviewImages exIdle :=
  have h := c1_preview_start_mutual_exclusion exBusy exIdle .video
    (Or.inl rfl) rfl rfl
  ⟨h.1, h.2.1⟩

/-- C9: when an accepted start's external invocation rejects, the resulting
progress is the terminal error payload for that kind — status `error`,
`errors = 1`, all other counters zero — and the kind's busy flag is cleared
again. -/
theorem c9_start_failure_is_terminal_error (s : PreviewState)
    (k : PreviewKind) (msg : String)
    (h1 : s.previewImagesBusy = false) (h2 : s.previewVideosBusy = false) :
    (startPreviewWith k (.error msg) s).previewProgress =
      some (errorProgress k msg) ∧
    busyFor k (startPreviewWith k (.error msg) s) = false ∧
    (errorProgress k msg).status = .error ∧
    (errorProgress k msg).errors = 1 ∧
    (errorProgress k msg).total = 0 ∧
    (errorProgress k msg).processed = 0 ∧
    (errorProgress k msg).generated = 0 ∧
    (errorProgress k msg).skipped = 0 := by
  cases k <;>
    simp [startPreviewWith, startPreview, generatePreviewImages,
      generatePreviewVideos, generatePreviewImagesFailed,
      generatePreviewVideosFailed, busyFor, errorProgress, h1, h2]

/-- Witness for C9: a failed image start from a concrete idle state. -/
theorem c9_start_failure_is_terminal_error_witness :
    (startPreviewWith .image (.error "boom") exIdle).previewProgress =
      some (errorProgress .image "boom") ∧
    busyFor .image (startPreviewWith .image (.error "boom") exIdle) = false :=
  have h := c9_start_failure_is_terminal_error exIdle .image "boom" rfl rfl
  ⟨h.1, h.2.1⟩

/-- C10: every accepted start (either kind) resets the
cancellation-requested flag to false while publishing the fresh running
payload, so a new job never begins with a stale cancellation request. -/
theorem c10_start_resets_cancel_request (s : PreviewState) (k : PreviewKind)
    (h1 : s.previewImagesBusy = false) (h2 : s.previewVideosBusy = false) :
    (startPreview k s).previewCancelRequested = false ∧
    (startPreview k s).previewProgress = some (initialProgress k) := by
  cases k <;>
    simp [startPreview, generatePreviewImages, generatePreviewVideos, h1, h2]

/-- Witness for C10: starting from an idle state whose cancellation flag is
still set from an earlier job. -/
theorem c10_start_resets_cancel_request_witness :
    exIdle.previewCancelRequested = true ∧
    (startPreview .video exIdle).previewCancelRequested = false :=
  ⟨rfl, (c10_start_resets_cancel_request exIdle .video rfl rfl).1⟩

/-! ## Author-inference fold lemmas -/

/-- If no entry of the table matches, the alias fold keeps its accumulator. -/
theorem foldl_pickAlias_of_no_match (s : String) :
    ∀ (l : List (String × String)) (acc : Option (String × String)),
      (∀ p ∈ l, strIncludes s p.1 = false) →
      l.foldl (pickAlias s) acc = acc := by
  intro l
  induction l with
  | nil => intro acc _; rfl
  | cons p rest ih =>
      intro acc hall
      have hp : strIncludes s p.1 = false := hall p (by simp)
      have hrest : ∀ q ∈ rest, strIncludes s q.1 = false := fun q hq =>
        hall q (by simp [hq])
      simp only [List.foldl_cons, pickAlias, hp, Bool.false_eq_true,
        if_false]
      exact ih acc hrest

/-- If the alias fold ends on `none`, it started on `none` and nothing in
the table matched. -/
theorem foldl_pickAlias_eq_none (s : String) :
    ∀ (l : List (String × String)) (acc : Option (String × String)),
      l.foldl (pickAlias s) acc = none →
      acc = none ∧ ∀ p ∈ l, strIncludes s p.1 = false := by
  intro l
  induction l with
  | nil => intro acc h; exact ⟨h, by simp⟩
  | cons p rest ih =>
      intro acc h
      rw [List.foldl_cons] at h
      obtain ⟨hacc, hrest⟩ := ih (pickAlias s acc p) h
      by_cases hp : strIncludes s p.1 = true
      · exfalso
        unfold pickAlias at hacc
        rw [hp] at hacc
        cases hb : acc with
        | none => rw [hb] at hacc; simp at hacc
        | some b =>
            rw [hb] at hacc
            by_cases hlen : p.1.length > b.1.length <;> simp [hlen] at hacc
      · have hp' : strIncludes s p.1 = false := by
          cases hv : strIncludes s p.1
          · rfl
          · exact absurd hv hp
        have hacc' : pickAlias s acc p = acc := by
          unfold pickAlias; rw [hp']; simp
        rw [hacc'] at hacc
        refine ⟨hacc, ?_⟩
        intro q hq
        rcases List.mem_cons.mp hq with h1 | h1
        · rw [h1]; exact hp'
        · exact hrest q h1

/-- If the alias fold ends on `some b`, then `b` either was the
accumulator or is a matching table entry, every matching table entry's key
is no longer than `b`'s, and the fold never shrank the accumulator's key
length. -/
theorem foldl_pickAlias_eq_some (s : String) :
    ∀ (l : List (String × String)) (acc : Option (String × String))
      (b : String × String),
      l.foldl (pickAlias s) acc = some b →
      (acc = some b ∨ (b ∈ l ∧ strIncludes s b.1 = true)) ∧
      (∀ p ∈ l, strIncludes s p.1 = true → p.1.length ≤ b.1.length) ∧
      (∀ b₀, acc = some b₀ → b₀.1.length ≤ b.1.length) := by
  intro l
  induction l with
  | nil =>
      intro acc b h
      refine ⟨Or.inl h, by simp, ?_⟩
      intro b₀ hb₀
      rw [hb₀] at h
      cases h
      exact le_refl _
  | cons p rest ih =>
      intro acc b h
      rw [List.foldl_cons] at h
      obtain ⟨hfrom, hmax, hgrow⟩ := ih (pickAlias s acc p) b h
      by_cases hp : strIncludes s p.1 = true
      · cases acc with
        | none =>
            have hstep : pickAlias s none p = some p := by
              simp [pickAlias, hp]
            rw [hstep] at hfrom hgrow
            have hple : p.1.length ≤ b.1.length := hgrow p rfl
            refine ⟨?_, ?_, by intro b₀ hb₀; cases hb₀⟩
            · rcases hfrom with h1 | h1
              · cases h1
                exact Or.inr ⟨by simp, hp⟩
              · exact Or.inr ⟨by simp [h1.1], h1.2⟩
            · intro q hq hqm
              rcases List.mem_cons.mp hq with h1 | h1
              · rw [h1]; exact hple
              · exact hmax q h1 hqm
        | some a =>
            by_cases hlen : p.1.length > a.1.length
            · have hstep : pickAlias s (some a) p = some p := by
                simp [pickAlias, hp, hlen]
              rw [hstep] at hfrom hgrow
              have hple : p.1.length ≤ b.1.length := hgrow p rfl
              refine ⟨?_, ?_, ?_⟩
              · rcases hfrom with h1 | h1
                · cases h1
                  exact Or.inr ⟨by simp, hp⟩
                · exact Or.inr ⟨by simp [h1.1], h1.2⟩
              · intro q hq hqm
                rcases List.mem_cons.mp hq with h1 | h1
                · rw [h1]; exact hple
                · exact hmax q h1 hqm
              · intro b₀ hb₀
                cases hb₀
                exact le_trans (le_of_lt hlen) hple
            · have hstep : pickAlias s (some a) p = some a := by
                simp [pickAlias, hp, hlen]
              rw [hstep] at hfrom hgrow
              have hale : a.1.length ≤ b.1.length := hgrow a rfl
              refine ⟨?_, ?_, ?_⟩
              · rcases hfrom with h1 | h1
                · exact Or.inl h1
                · exact Or.inr ⟨by simp [h1.1], h1.2⟩
              · intro q hq hqm
                rcases List.mem_cons.mp hq with h1 | h1
                · rw [h1]
                  exact le_trans (Nat.le_of_not_lt hlen) hale
                · exact hmax q h1 hqm
              · intro b₀ hb₀
                cases hb₀
                exact hale
      · have hp' : strIncludes s p.1 = false := by
          cases hv : strIncludes s p.1
          · rfl
          · exact absurd hv hp
        have hstep : pickAlias s acc p = acc := by
          unfold pickAlias; rw [hp']; simp
        rw [hstep] at hfrom hgrow
        constructor
        · rcases hfrom with h1 | h1
          · exact Or.inl h1
          · exact Or.inr ⟨by simp [h1.1], h1.2⟩
        · refine ⟨?_, hgrow⟩
          intro q hq hqm
          rcases List.mem_cons.mp hq with h1 | h1
          · rw [h1] at hqm
            rw [hqm] at hp'
            cases hp'
          · exact hmax q h1 hqm

/-- C7: for every behavior of the lowercasing and NFD builtins and every
folder name, the inference first normalizes (lowercase, NFD, strip
combining marks, remove everything outside `[a-z0-9]`); an empty normalized
string yields "unknown"; with no matching alias key it yields "unknown";
and whenever some key matches, the result is the canonical form of a
matching key of maximal character length (longest-match wins). -/
theorem c7_author_inference_longest_match (lower nfd : String → String)
    (name : String) :
    (sanitizeFolderName lower nfd name = "" →
      inferAuthorFromFolderName lower nfd name = "unknown") ∧
    (sanitizeFolderName lower nfd name ≠ "" →
      (∀ p ∈ AUTHOR_ALIASES,
        strIncludes (sanitizeFolderName lower nfd name) p.1 = false) →
      inferAuthorFromFolderName lower nfd name = "unknown") ∧
    (sanitizeFolderName lower nfd name ≠ "" →
      ∀ q ∈ AUTHOR_ALIASES,
        strIncludes (sanitizeFolderName lower nfd name) q.1 = true →
      ∃ b, b ∈ AUTHOR_ALIASES ∧
        strIncludes (sanitizeFolderName lower nfd name) b.1 = true ∧
        inferAuthorFromFolderName lower nfd name = b.2 ∧
        ∀ p ∈ AUTHOR_ALIASES,
          strIncludes (sanitizeFolderName lower nfd name) p.1 = true →
          p.1.length ≤ b.1.length) := by
  refine ⟨?_, ?_, ?_⟩
  · intro h
    simp [inferAuthorFromFolderName, h]
  · intro h hall
    have hfold := foldl_pickAlias_of_no_match (sanitizeFolderName lower nfd name)
      AUTHOR_ALIASES none hall
    simp [inferAuthorFromFolderName, h, hfold]
  · intro h q hq hqm
    cases hfold : AUTHOR_ALIASES.foldl
        (pickAlias (sanitizeFolderName lower nfd name)) none with
    | none =>
        exact absurd hqm (by
          simp [(foldl_pickAlias_eq_none _ _ _ hfold).2 q hq])
    | some b =>
        obtain ⟨hfrom, hmax, _⟩ :=
          foldl_pickAlias_eq_some (sanitizeFolderName lower nfd name)
            AUTHOR_ALIASES none b hfold
        rcases hfrom with h1 | h1
        · cases h1
        · refine ⟨b, h1.1, h1.2, ?_, hmax⟩
          simp [inferAuthorFromFolderName, h, hfold]

/-- Witness for C7 at the ASCII builtin behaviors: "MrMiagi stuff"
normalizes to "mrmiagistuff", the key "mrmiagi" matches, and the inference
returns a canonical form of a maximal-length matching key. -/
theorem c7_author_inference_longest_match_witness :
    sanitizeFolderName asciiLower nfdAscii "MrMiagi stuff" ≠ "" ∧
    strIncludes (sanitizeFolderName asciiLower nfdAscii "MrMiagi stuff")
      "mrmiagi" = true ∧
    ∃ b, b ∈ AUTHOR_ALIASES ∧
      strIncludes (sanitizeFolderName asciiLower nfdAscii "MrMiagi stuff")
        b.1 = true ∧
      inferAuthorFromFolderName asciiLower nfdAscii "MrMiagi stuff" = b.2 ∧
      ∀ p ∈ AUTHOR_ALIASES,
        strIncludes (sanitizeFolderName asciiLower nfdAscii "MrMiagi stuff")
          p.1 = true →
        p.1.length ≤ b.1.length :=
  ⟨by decide, by decide,
    (c7_author_inference_longest_match asciiLower nfdAscii "MrMiagi stuff").2.2
      (by decide) ("mrmiagi", "MrMiagi") (by decide) (by decide)⟩

/-- C8 counterexample: on the folder name "Yuk11sh1d4_mods" the inference
does not return "Yuk11sh1d4" — the normalized form "yuk11sh1d4mods" does
not contain the alias key "yukiishida".  The input is all ASCII, where the
`asciiLower`/`nfdAscii` instantiation is exactly the builtins' behavior. -/
theorem c8_yuk11sh1d4_counterexample :
    inferAuthorFromFolderName asciiLower nfdAscii "Yuk11sh1d4_mods" ≠
      "Yuk11sh1d4" := by decide

/-- C8 amended: on "Yuk11sh1d4_mods" the inference returns "unknown",
because no alias key occurs in the normalized "yuk11sh1d4mods"; the alias
key "yukiishida" instead matches folder names that literally contain it,
e.g. "yukiishida_mods" yields the canonical "Yuk11sh1d4".  Both inputs are
all ASCII, where `asciiLower`/`nfdAscii` is the builtins' behavior. -/
theorem c8_yuk11sh1d4_amended :
    inferAuthorFromFolderName asciiLower nfdAscii "Yuk11sh1d4_mods" =
      "unknown" ∧
    inferAuthorFromFolderName asciiLower nfdAscii "yukiishida_mods" =
      "Yuk11sh1d4" :=
  ⟨by decide, by decide⟩

/-! ## JS `Map` dedup lemmas (the dryRun dedup step) -/

/-- Looking a key up after one `Map.set`: the inserted key now maps to the
new entry, every other key is unchanged. -/
theorem mapLookup_mapSet {α : Type} (m : List (String × α)) (kv : String × α)
    (k : String) :
    mapLookup (mapSet m kv) k = if kv.1 = k then some kv else mapLookup m k := by
  induction m with
  | nil => simp [mapSet, mapLookup]
  | cons q rest ih =>
      by_cases h1 : q.1 = kv.1
      · simp only [mapSet, if_pos h1, mapLookup]
        by_cases h2 : kv.1 = k
        · simp [h2]
        · have hq : ¬q.1 = k := by rw [h1]; exact h2
          simp [h2, hq]
      · simp only [mapSet, if_neg h1, mapLookup]
        by_cases h2 : q.1 = k
        · have hk : ¬kv.1 = k := fun hkk => h1 (h2.trans hkk.symm)
          simp [h2, hk]
        · simp [h2, ih]

/-- Looking up after folding `Map.set` over an entry list: the last entry
with the key wins, falling back to the starting map. -/
theorem mapLookup_foldl_mapSet {α : Type} :
    ∀ (entries m : List (String × α)) (k : String),
      mapLookup (entries.foldl mapSet m) k =
        match lastEntryWithKey entries k with
        | some e => some e
        | none => mapLookup m k := by
  intro entries
  induction entries with
  | nil => intro m k; simp [lastEntryWithKey]
  | cons e rest ih =>
      intro m k
      rw [List.foldl_cons, ih (mapSet m e) k]
      cases hrest : lastEntryWithKey rest k with
      | some x => simp [lastEntryWithKey, hrest]
      | none =>
          simp only [lastEntryWithKey, hrest, mapLookup_mapSet]
          by_cases h : e.1 = k <;> simp [h]

/-- A map built by `new Map(entries)` looks up to exactly the last entry with the key. -/
theorem mapLookup_mapFromEntries {α : Type} (entries : List (String × α))
    (k : String) :
    mapLookup (mapFromEntries entries) k = lastEntryWithKey entries k := by
  rw [mapFromEntries, mapLookup_foldl_mapSet]
  cases lastEntryWithKey entries k <;> rfl

/-- A key present after `Map.set` is the inserted one or was present. -/
theorem keys_mapSet_subset {α : Type} (m : List (String × α)) (kv : String × α) :
    ∀ x ∈ (mapSet m kv).map (·.1), x = kv.1 ∨ x ∈ m.map (·.1) := by
  induction m with
  | nil =>
      intro x hx
      simp only [mapSet, List.map_cons, List.map_nil, List.mem_singleton] at hx
      exact Or.inl hx
  | cons q rest ih =>
      intro x hx
      by_cases h1 : q.1 = kv.1
      · simp only [mapSet, if_pos h1, List.map_cons, List.mem_cons] at hx
        rcases hx with hx | hx
        · exact Or.inl hx
        · exact Or.inr (by simp [hx])
      · simp only [mapSet, if_neg h1, List.map_cons, List.mem_cons] at hx
        rcases hx with hx | hx
        · exact Or.inr (by simp [hx])
        · rcases ih x hx with h | h
          · exact Or.inl h
          · exact Or.inr (by simp [h])

/-- One `Map.set` keeps the keys pairwise distinct. -/
theorem keys_mapSet_nodup {α : Type} (m : List (String × α)) (kv : String × α)
    (h : (m.map (·.1)).Nodup) : ((mapSet m kv).map (·.1)).Nodup := by
  induction m with
  | nil => simp [mapSet]
  | cons q rest ih =>
      rw [List.map_cons, List.nodup_cons] at h
      by_cases h1 : q.1 = kv.1
      · simp only [mapSet, if_pos h1, List.map_cons, List.nodup_cons]
        exact ⟨by rw [← h1]; exact h.1, h.2⟩
      · simp only [mapSet, if_neg h1, List.map_cons, List.nodup_cons]
        refine ⟨?_, ih h.2⟩
        intro hq
        rcases keys_mapSet_subset rest kv q.1 hq with he | he
        · exact h1 he
        · exact h.1 he

/-- Folding `Map.set` from a distinct-keyed map keeps keys distinct. -/
theorem keys_foldl_mapSet_nodup {α : Type} :
    ∀ (entries m : List (String × α)),
      (m.map (·.1)).Nodup → ((entries.foldl mapSet m).map (·.1)).Nodup := by
  intro entries
  induction entries with
  | nil => intro m h; exact h
  | cons e rest ih => intro m h; exact ih (mapSet m e) (keys_mapSet_nodup m e h)

/-- An entry of `mapSet m kv` is `kv` or an entry of `m`. -/
theorem mem_mapSet {α : Type} (m : List (String × α)) (kv a : String × α)
    (ha : a ∈ mapSet m kv) : a = kv ∨ a ∈ m := by
  induction m with
  | nil =>
      simp only [mapSet, List.mem_singleton] at ha
      exact Or.inl ha
  | cons q rest ih =>
      by_cases h1 : q.1 = kv.1
      · simp only [mapSet, if_pos h1, List.mem_cons] at ha
        rcases ha with ha | ha
        · exact Or.inl ha
        · exact Or.inr (List.mem_cons_of_mem q ha)
      · simp only [mapSet, if_neg h1, List.mem_cons] at ha
        rcases ha with ha | ha
        · exact Or.inr (by simp [ha])
        · rcases ih ha with h | h
          · exact Or.inl h
          · exact Or.inr (by simp [h])

/-- An entry of the folded map is a starting entry or an input entry. -/
theorem mem_foldl_mapSet {α : Type} :
    ∀ (entries m : List (String × α)) (a : String × α),
      a ∈ entries.foldl mapSet m → a ∈ m ∨ a ∈ entries := by
  intro entries
  induction entries with
  | nil => intro m a h; exact Or.inl h
  | cons e rest ih =>
      intro m a h
      rcases ih (mapSet m e) a h with h1 | h1
      · rcases mem_mapSet m e a h1 with h2 | h2
        · exact Or.inr (by simp [h2])
        · exact Or.inl h2
      · exact Or.inr (by simp [h1])

/-- In a map with distinct keys, every entry is found by its own key. -/
theorem mapLookup_of_mem {α : Type} (m : List (String × α)) (a : String × α)
    (hnd : (m.map (·.1)).Nodup) (ha : a ∈ m) : mapLookup m a.1 = some a := by
  induction m with
  | nil => cases ha
  | cons q rest ih =>
      rw [List.map_cons, List.nodup_cons] at hnd
      rcases List.mem_cons.mp ha with h | h
      · rw [h]; simp [mapLookup]
      · have hne : ¬q.1 = a.1 := by
          intro he
          apply hnd.1
          rw [he]
          exact List.mem_map_of_mem _ h
        simp [mapLookup, hne, ih hnd.2 h]

/-- A successful lookup returns an entry of the map carrying the key. -/
theorem mapLookup_mem {α : Type} (m : List (String × α)) (k : String)
    (e : String × α) (h : mapLookup m k = some e) : e ∈ m ∧ e.1 = k := by
  induction m with
  | nil => cases h
  | cons q rest ih =>
      by_cases h1 : q.1 = k
      · simp only [mapLookup, if_pos h1] at h
        cases h
        exact ⟨by simp, h1⟩
      · simp only [mapLookup, if_neg h1] at h
        obtain ⟨hm, hk⟩ := ih h
        exact ⟨by simp [hm], hk⟩

/-- The last entry with a key, over the entries built from a draft list, is
the pairing of the last draft with that path. -/
theorem lastEntryWithKey_entries (input : List DraftMod) (k : String) :
    lastEntryWithKey (input.map fun r => (r.folder_path, r)) k =
      (lastWithPath input k).map (fun r => (r.folder_path, r)) := by
  induction input with
  | nil => rfl
  | cons r rest ih =>
      simp only [List.map_cons, lastEntryWithKey, lastWithPath, ih]
      cases lastWithPath rest k with
      | some x => rfl
      | none =>
          by_cases h : r.folder_path = k <;> simp [h]

/-- A draft list member guarantees a last record with its path. -/
theorem lastWithPath_isSome (l : List DraftMod) (r : DraftMod) (hr : r ∈ l) :
    (lastWithPath l r.folder_path).isSome = true := by
  induction l with
  | nil => cases hr
  | cons q rest ih =>
      simp only [lastWithPath]
      rcases List.mem_cons.mp hr with h | h
      · cases hl : lastWithPath rest r.folder_path with
        | some x => simp
        | none => subst h; simp
      · have hsome := ih h
        cases hl : lastWithPath rest r.folder_path with
        | some x => simp
        | none => rw [hl] at hsome; cases hsome

/-- Function `dryRunDrafts` is the dedup alone: the `?? null` normalization is the
identity once `undefined` and `null` are both `none`. -/
theorem dryRunDrafts_eq_dedupe (input : List DraftMod) :
    dryRunDrafts input = dedupeByPath input := by
  rw [dryRunDrafts]
  calc (dedupeByPath input).map normalizeDraft
      = (dedupeByPath input).map id := List.map_congr_left (fun r _ => rfl)
    _ = dedupeByPath input := List.map_id _

/-- Every pair of the dedup map is an entry built from an input draft, so
its value's path is its key. -/
theorem dedupe_pair_path (input : List DraftMod) (q : String × DraftMod)
    (hq : q ∈ mapFromEntries (input.map fun r => (r.folder_path, r))) :
    q.2.folder_path = q.1 ∧ q.2 ∈ input := by
  rw [mapFromEntries] at hq
  rcases mem_foldl_mapSet (input.map fun r => (r.folder_path, r)) [] q hq with h | h
  · cases h
  · obtain ⟨r, hr, hrq⟩ := List.mem_map.mp h
    rw [← hrq]
    exact ⟨rfl, hr⟩

/-- C2: the dry-run dedup yields exactly one record per distinct
`folder_path` — its path list is duplicate-free and covers every input
path — and the record kept for each path is the last input record with
that path (later records override earlier ones). -/
theorem c2_dryrun_dedup_last_write_wins (input : List DraftMod) :
    ((dryRunDrafts input).map (·.folder_path)).Nodup ∧
    (∀ r ∈ input, ∃ d ∈ dryRunDrafts input, d.folder_path = r.folder_path) ∧
    (∀ d ∈ dryRunDrafts input, lastWithPath input d.folder_path = some d) := by
  rw [dryRunDrafts_eq_dedupe]
  set entries := input.map fun r => (r.folder_path, r) with hentries
  have hkeys : ((mapFromEntries entries).map (·.1)).Nodup :=
    keys_foldl_mapSet_nodup entries [] (by simp)
  refine ⟨?_, ?_, ?_⟩
  · have hmaps : (mapFromEntries entries).map (fun q => q.2.folder_path) =
        (mapFromEntries entries).map (·.1) := by
      apply List.map_congr_left
      intro q hq
      exact (dedupe_pair_path input q hq).1
    have : (dedupeByPath input).map (·.folder_path) =
        (mapFromEntries entries).map (fun q => q.2.folder_path) := by
      rw [dedupeByPath, List.map_map]
      rfl
    rw [this, hmaps]
    exact hkeys
  · intro r hr
    have hsome := lastWithPath_isSome input r hr
    cases hw : lastWithPath input r.folder_path with
    | none => rw [hw] at hsome; cases hsome
    | some w =>
        have hlast : lastEntryWithKey entries r.folder_path =
            some (w.folder_path, w) := by
          rw [hentries, lastEntryWithKey_entries, hw, Option.map_some']
        have hlk : mapLookup (mapFromEntries entries) r.folder_path =
            some (w.folder_path, w) := by
          rw [mapLookup_mapFromEntries]; exact hlast
        obtain ⟨hmem, hkey⟩ := mapLookup_mem _ _ _ hlk
        refine ⟨w, ?_, hkey⟩
        rw [dedupeByPath]
        exact List.mem_map_of_mem _ hmem
  · intro d hd
    rw [dedupeByPath] at hd
    obtain ⟨q, hqmem, hqd⟩ := List.mem_map.mp hd
    obtain ⟨hpath, _⟩ := dedupe_pair_path input q hqmem
    have hlk : mapLookup (mapFromEntries entries) q.1 = some q :=
      mapLookup_of_mem _ q hkeys hqmem
    rw [mapLookup_mapFromEntries, hentries, lastEntryWithKey_entries] at hlk
    cases hw : lastWithPath input q.1 with
    | none => rw [hw] at hlk; cases hlk
    | some w =>
        rw [hw, Option.map_some'] at hlk
        have hwq : w = q.2 := congrArg Prod.snd (Option.some.inj hlk)
        rw [← hqd, hpath, hw, hwq]

/-- Witness for C2 on the spec's own example: two records for "/a", the
later one kept. -/
theorem c2_dryrun_dedup_last_write_wins_witness :
    dryRunDrafts [exDraftA, exDraftA2] = [exDraftA2] ∧
    lastWithPath [exDraftA, exDraftA2] exDraftA2.folder_path = some exDraftA2 := by
  refine ⟨by rfl, ?_⟩
  exact (c2_dryrun_dedup_last_write_wins [exDraftA, exDraftA2]).2.2 exDraftA2
    (by rw [show dryRunDrafts [exDraftA, exDraftA2] = [exDraftA2] from rfl]
        simp)

/-! ## Bulk-queue lemmas (`startBulkImportFromLibraries`) -/

/-- Pushing skips a path already queued. -/
theorem pushAuthor_pos (q : List AuthorFolder) (b : AuthorFolder)
    (h : ∃ c ∈ q, c.folder_path = b.folder_path) : pushAuthor q b = q := by
  obtain ⟨c, hc, hcb⟩ := h
  have : q.any (fun c => c.folder_path = b.folder_path) = true :=
    List.any_eq_true.mpr ⟨c, hc, by simp [hcb]⟩
  simp [pushAuthor, this]

/-- Pushing appends a path not yet queued. -/
theorem pushAuthor_neg (q : List AuthorFolder) (b : AuthorFolder)
    (h : ∀ c ∈ q, ¬c.folder_path = b.folder_path) : pushAuthor q b = q ++ [b] := by
  have : q.any (fun c => c.folder_path = b.folder_path) = false := by
    rw [← Bool.not_eq_true, List.any_eq_true]
    rintro ⟨c, hc, hcb⟩
    exact h c hc (by simpa using hcb)
  simp [pushAuthor, this]

/-- Queued entries survive a push. -/
theorem mem_pushAuthor_of_mem (q : List AuthorFolder) (b x : AuthorFolder)
    (hx : x ∈ q) : x ∈ pushAuthor q b := by
  by_cases h : ∃ c ∈ q, c.folder_path = b.folder_path
  · rw [pushAuthor_pos q b h]; exact hx
  · rw [pushAuthor_neg q b (by push_neg at h; exact h)]
    exact List.mem_append_left _ hx

/-- A queue entry after a push was queued, or is the pushed author and its
path was fresh. -/
theorem mem_pushAuthor (q : List AuthorFolder) (b x : AuthorFolder)
    (hx : x ∈ pushAuthor q b) :
    x ∈ q ∨ (x = b ∧ ∀ c ∈ q, ¬c.folder_path = b.folder_path) := by
  by_cases h : ∃ c ∈ q, c.folder_path = b.folder_path
  · rw [pushAuthor_pos q b h] at hx; exact Or.inl hx
  · push_neg at h
    rw [pushAuthor_neg q b h] at hx
    rcases List.mem_append.mp hx with h1 | h1
    · exact Or.inl h1
    · exact Or.inr ⟨List.mem_singleton.mp h1, h⟩

/-- After a push, the pushed path is represented in the queue. -/
theorem pushAuthor_path_mem (q : List AuthorFolder) (b : AuthorFolder) :
    ∃ c ∈ pushAuthor q b, c.folder_path = b.folder_path := by
  by_cases h : ∃ c ∈ q, c.folder_path = b.folder_path
  · rw [pushAuthor_pos q b h]; exact h
  · rw [pushAuthor_neg q b (by push_neg at h; exact h)]
    exact ⟨b, List.mem_append_right _ (by simp), rfl⟩

/-- A push keeps queue paths pairwise distinct. -/
theorem pushAuthor_paths_nodup (q : List AuthorFolder) (b : AuthorFolder)
    (h : (q.map (·.folder_path)).Nodup) :
    ((pushAuthor q b).map (·.folder_path)).Nodup := by
  by_cases hex : ∃ c ∈ q, c.folder_path = b.folder_path
  · rw [pushAuthor_pos q b hex]; exact h
  · push_neg at hex
    rw [pushAuthor_neg q b hex, List.map_append]
    rw [List.nodup_append]
    refine ⟨h, by simp, ?_⟩
    intro x hx hx'
    simp only [List.map_cons, List.map_nil, List.mem_singleton] at hx'
    obtain ⟨c, hc, hcx⟩ := List.mem_map.mp hx
    exact hex c hc (by rw [hcx, hx'])

/-- Folding pushes keeps queue paths pairwise distinct. -/
theorem foldl_pushAuthor_paths_nodup :
    ∀ (l q : List AuthorFolder), (q.map (·.folder_path)).Nodup →
      ((l.foldl pushAuthor q).map (·.folder_path)).Nodup := by
  intro l
  induction l with
  | nil => intro q h; exact h
  | cons b rest ih => intro q h; exact ih _ (pushAuthor_paths_nodup q b h)

/-- Queued entries survive the whole fold. -/
theorem mem_foldl_pushAuthor_of_mem :
    ∀ (l q : List AuthorFolder) (x : AuthorFolder), x ∈ q →
      x ∈ l.foldl pushAuthor q := by
  intro l
  induction l with
  | nil => intro q x hx; exact hx
  | cons b rest ih =>
      intro q x hx
      exact ih _ x (mem_pushAuthor_of_mem q b x hx)

/-- Every pushed author's path ends up represented in the folded queue. -/
theorem foldl_pushAuthor_covers :
    ∀ (l q : List AuthorFolder) (b : AuthorFolder), b ∈ l →
      ∃ a ∈ l.foldl pushAuthor q, a.folder_path = b.folder_path := by
  intro l
  induction l with
  | nil => intro q b hb; cases hb
  | cons x rest ih =>
      intro q b hb
      rcases List.mem_cons.mp hb with h | h
      · subst h
        obtain ⟨c, hc, hcb⟩ := pushAuthor_path_mem q b
        exact ⟨c, mem_foldl_pushAuthor_of_mem rest _ c hc, hcb⟩
      · exact ih _ b h

/-- An entry of the folded queue is an original entry, or the first pushed
author carrying its path. -/
theorem mem_foldl_pushAuthor :
    ∀ (l q : List AuthorFolder) (a : AuthorFolder),
      a ∈ l.foldl pushAuthor q →
      a ∈ q ∨ ((∀ c ∈ q, ¬c.folder_path = a.folder_path) ∧
        firstWithPath l a.folder_path = some a) := by
  intro l
  induction l with
  | nil => intro q a ha; exact Or.inl ha
  | cons b rest ih =>
      intro q a ha
      rcases ih _ a ha with h1 | h1
      · rcases mem_pushAuthor q b a h1 with h2 | h2
        · exact Or.inl h2
        · obtain ⟨rfl, hfresh⟩ := h2
          refine Or.inr ⟨hfresh, ?_⟩
          simp [firstWithPath]
      · obtain ⟨hfresh, hfirst⟩ := h1
        have hbq : ∃ c ∈ pushAuthor q b, c.folder_path = b.folder_path :=
          pushAuthor_path_mem q b
        have hbne : ¬b.folder_path = a.folder_path := by
          intro he
          obtain ⟨c, hc, hcb⟩ := hbq
          exact hfresh c hc (hcb.trans he)
        refine Or.inr ⟨?_, ?_⟩
        · intro c hc
          exact hfresh c (mem_pushAuthor_of_mem q b c hc)
        · simp only [firstWithPath, hbne, if_false]
          exact hfirst

/-- The lexicographic comparison is transitive. -/
theorem charListLe_trans : ∀ (x y z : List Char),
    charListLe x y = true → charListLe y z = true → charListLe x z = true := by
  intro x
  induction x with
  | nil => intro y z _ _; rfl
  | cons a as ih =>
      intro y z hxy hyz
      cases y with
      | nil => simp [charListLe] at hxy
      | cons b bs =>
          cases z with
          | nil => simp [charListLe] at hyz
          | cons c cs =>
              simp only [charListLe] at hxy hyz ⊢
              by_cases hab : a.toNat < b.toNat
              · by_cases hbc : b.toNat < c.toNat
                · simp [lt_trans hab hbc]
                · by_cases hcb : c.toNat < b.toNat
                  · rw [if_neg hbc, if_pos hcb] at hyz; cases hyz
                  · have hbc' : b.toNat = c.toNat :=
                      le_antisymm (Nat.le_of_not_lt hcb) (Nat.le_of_not_lt hbc)
                    simp [hbc' ▸ hab]
              · by_cases hba : b.toNat < a.toNat
                · rw [if_neg hab, if_pos hba] at hxy; cases hxy
                · have hab' : a.toNat = b.toNat :=
                    le_antisymm (Nat.le_of_not_lt hba) (Nat.le_of_not_lt hab)
                  rw [if_neg hab, if_neg hba] at hxy
                  by_cases hbc : b.toNat < c.toNat
                  · simp [hab' ▸ hbc]
                  · by_cases hcb : c.toNat < b.toNat
                    · rw [if_neg hbc, if_pos hcb] at hyz; cases hyz
                    · have hbc' : b.toNat = c.toNat :=
                        le_antisymm (Nat.le_of_not_lt hcb) (Nat.le_of_not_lt hbc)
                      have hac : ¬a.toNat < c.toNat := by
                        rw [hab', hbc']; exact lt_irrefl _
                      have hca : ¬c.toNat < a.toNat := by
                        rw [hab', hbc']; exact lt_irrefl _
                      rw [if_neg hbc, if_neg hcb] at hyz
                      rw [if_neg hac, if_neg hca]
                      exact ih bs cs hxy hyz

/-- The lexicographic comparison is total. -/
theorem charListLe_total : ∀ (x y : List Char),
    (charListLe x y || charListLe y x) = true := by
  intro x
  induction x with
  | nil => intro y; simp [charListLe]
  | cons a as ih =>
      intro y
      cases y with
      | nil => simp [charListLe]
      | cons b bs =>
          simp only [charListLe]
          by_cases hab : a.toNat < b.toNat
          · simp [hab]
          · by_cases hba : b.toNat < a.toNat
            · simp [hab, hba]
            · simp only [if_neg hab, if_neg hba]
              exact ih bs

/-- Function `collectAuthors` is the plain dedup fold over the concatenation of the
successful roots' author lists. -/
theorem collectAuthors_eq_flatten :
    ∀ (results : List (Except String (List AuthorFolder)))
      (q : List AuthorFolder),
      results.foldl
        (fun q r =>
          match r with
          | .ok authors => authors.foldl pushAuthor q
          | .error _ => q) q =
      (flattenOk results).foldl pushAuthor q := by
  intro results
  induction results with
  | nil => intro q; rfl
  | cons r rest ih =>
      intro q
      cases r with
      | ok authors =>
          simp only [List.foldl_cons, flattenOk, List.map_cons,
            List.flatten_cons, List.foldl_append]
          exact ih _
      | error e =>
          simp only [List.foldl_cons, flattenOk, List.map_cons,
            List.flatten_cons, List.nil_append]
          exact ih q

/-- C4 counterexample: the claim's "sorted ascending lexicographically"
fails on mixed-case paths.  The program's comparator is the default-locale
collation, which orders "/m/apple" before "/m/Banana" (as `asciiFoldLe`
does on these paths); the resulting queue is then not sorted in code-point
lexicographic order. -/
theorem c4_lexicographic_sort_counterexample :
    asciiFoldLe "/m/apple" "/m/Banana" = true ∧
    asciiFoldLe "/m/Banana" "/m/apple" = false ∧
    startBulkQueueWith (fun a b => asciiFoldLe a.folder_path b.folder_path)
        [.ok [⟨"/m/apple", "A"⟩, ⟨"/m/Banana", "B"⟩]] =
      [⟨"/m/apple", "A"⟩, ⟨"/m/Banana", "B"⟩] ∧
    ¬([⟨"/m/apple", "A"⟩, ⟨"/m/Banana", "B"⟩] : List AuthorFolder).Pairwise
        (fun a b => charListLe a.folder_path.data b.folder_path.data = true) := by
  refine ⟨by decide, by decide, ?_, ?_⟩
  · have hcoll : collectAuthors [.ok [⟨"/m/apple", "A"⟩, ⟨"/m/Banana", "B"⟩]] =
        [⟨"/m/apple", "A"⟩, ⟨"/m/Banana", "B"⟩] := by decide
    rw [startBulkQueueWith, hcoll]
    exact List.mergeSort_of_sorted (by decide)
  · intro hpw
    have h := (List.pairwise_cons.mp hpw).1 ⟨"/m/Banana", "B"⟩ (by simp)
    exact absurd h (by decide)

/-- C4 amended: for every consistent (transitive and total) collation
comparator — the contract `Array.prototype.sort` and locale collations
satisfy — the merged bulk-import queue holds each distinct `folder_path`
exactly once — duplicate-free paths covering every author folder of every
successful root — the entry kept per path is the first occurrence across
roots in root order, and the final queue is sorted ascending by that
collation comparator. -/
theorem c4_bulk_queue_dedup_sorted_by_collation
    (le : AuthorFolder → AuthorFolder → Bool)
    (htrans : ∀ a b c, le a b = true → le b c = true → le a c = true)
    (htotal : ∀ a b, (le a b || le b a) = true)
    (results : List (Except String (List AuthorFolder))) :
    ((startBulkQueueWith le results).map (·.folder_path)).Nodup ∧
    (∀ b ∈ flattenOk results,
      ∃ a ∈ startBulkQueueWith le results, a.folder_path = b.folder_path) ∧
    (∀ a ∈ startBulkQueueWith le results,
      firstWithPath (flattenOk results) a.folder_path = some a) ∧
    (startBulkQueueWith le results).Pairwise (fun a b => le a b = true) := by
  have hcoll : collectAuthors results = (flattenOk results).foldl pushAuthor [] :=
    collectAuthors_eq_flatten results []
  have hperm : List.Perm (startBulkQueueWith le results) (collectAuthors results) :=
    List.mergeSort_perm (collectAuthors results) le
  refine ⟨?_, ?_, ?_, ?_⟩
  · have hnodup : ((collectAuthors results).map (·.folder_path)).Nodup := by
      rw [hcoll]
      exact foldl_pushAuthor_paths_nodup (flattenOk results) [] (by simp)
    exact (hperm.map (·.folder_path)).nodup_iff.mpr hnodup
  · intro b hb
    obtain ⟨a, ha, hab⟩ := foldl_pushAuthor_covers (flattenOk results) [] b hb
    refine ⟨a, ?_, hab⟩
    apply hperm.mem_iff.mpr
    rw [hcoll]
    exact ha
  · intro a ha
    have ha' : a ∈ collectAuthors results := hperm.mem_iff.mp ha
    rw [hcoll] at ha'
    rcases mem_foldl_pushAuthor (flattenOk results) [] a ha' with h | h
    · cases h
    · exact h.2
  · exact List.sorted_mergeSort htrans htotal (collectAuthors results)

/-- Witness for the amended C4: the case-folding collation comparator at
two roots sharing the path "/m/apple", one failing root; the dedup keeps
the first occurrence and the queue ends in collation order. -/
theorem c4_bulk_queue_dedup_sorted_by_collation_witness :
    startBulkQueueWith (fun a b => asciiFoldLe a.folder_path b.folder_path)
        [.ok [⟨"/m/apple", "A1"⟩, ⟨"/m/Banana", "B"⟩], .error "bad root",
         .ok [⟨"/m/apple", "A2"⟩]] =
      [⟨"/m/apple", "A1"⟩, ⟨"/m/Banana", "B"⟩] ∧
    firstWithPath
        (flattenOk
          [.ok [⟨"/m/apple", "A1"⟩, ⟨"/m/Banana", "B"⟩], .error "bad root",
           .ok [⟨"/m/apple", "A2"⟩]]) "/m/apple" =
      some ⟨"/m/apple", "A1"⟩ := by
  have hcoll : collectAuthors
      [.ok [⟨"/m/apple", "A1"⟩, ⟨"/m/Banana", "B"⟩], .error "bad root",
       .ok [⟨"/m/apple", "A2"⟩]] =
      [⟨"/m/apple", "A1"⟩, ⟨"/m/Banana", "B"⟩] := by decide
  have hsort : startBulkQueueWith
      (fun a b => asciiFoldLe a.folder_path b.folder_path)
      [.ok [⟨"/m/apple", "A1"⟩, ⟨"/m/Banana", "B"⟩], .error "bad root",
       .ok [⟨"/m/apple", "A2"⟩]] =
      [⟨"/m/apple", "A1"⟩, ⟨"/m/Banana", "B"⟩] := by
    rw [startBulkQueueWith, hcoll]
    exact List.mergeSort_of_sorted (by decide)
  refine ⟨hsort, ?_⟩
  exact (c4_bulk_queue_dedup_sorted_by_collation
      (fun a b => asciiFoldLe a.folder_path b.folder_path)
      (fun a b c hab hbc => charListLe_trans _ _ _ hab hbc)
      (fun a b => charListLe_total _ _)
      [.ok [⟨"/m/apple", "A1"⟩, ⟨"/m/Banana", "B"⟩], .error "bad root",
       .ok [⟨"/m/apple", "A2"⟩]]).2.2.1 ⟨"/m/apple", "A1"⟩
    (by rw [hsort]; simp)

end BD2
